import Mathlib

/-!
Verification development for the AutoMemer repository
(`scrape_reddit.py`, `slackbot.py`).

The Python code is shallowly embedded: every function below models the
control flow of the corresponding Python function over explicit state.
The relational persistence layer (`utils.py`, not part of the sources)
is modelled from the specification where noted.  Python integers are
`Int`, timestamps are `Nat`, dictionaries are insertion-ordered
association lists, as CPython dictionaries are.
-/

namespace AutoMemer

/-- A scraped post / archive row.  Field names follow the keys built in
`scrape_reddit.scrape` (lines 65-80).  `upvote_ratio` is kept as an
integer stand-in for the float field; no verified property reads it. -/
structure Meme where
  id : String
  sub : String
  url : String
  title : String
  ups : Int
  highest_ups : Int
  over_18 : Bool
  upvote_ratio : Int
  author : String
  link : String
  created_utc : Nat
  recorded : Nat
  last_updated : Nat
  posted_to_slack : Bool
deriving DecidableEq

/-- The Staging Store (`memes/scraped.json`): an insertion-ordered
mapping from content URL to meme record, as a CPython dict is. -/
abbrev Staging := List (String × Meme)

/-- The Durable Archive (SQL database): a list of rows keyed by `id`. -/
abbrev Archive := List Meme

/-- CPython dict lookup. -/
def dictGet {α : Type} (s : List (String × α)) (k : String) : Option α :=
  (s.find? (fun p => p.1 == k)).map (·.2)

/-- CPython dict assignment `d[k] = v`: replaces the value in place if
the key is present (keeping its position), otherwise appends. -/
def dictInsert {α : Type} (s : List (String × α)) (k : String) (v : α) :
    List (String × α) :=
  if s.any (fun p => p.1 == k) then
    s.map (fun p => if p.1 == k then (p.1, v) else p)
  else
    s ++ [(k, v)]

/-- CPython `del d[k]`. -/
def dictDel {α : Type} (s : List (String × α)) (k : String) : List (String × α) :=
  s.filter (fun p => p.1 != k)

/-- Modelled from the spec: `utils.get_meme_data` (utils.py is absent
from the sources).  The Durable Archive is "queried ... by identifier";
`identifier` uniquely identifies an entry, absent identifiers yield a
falsy result (spec section 3 and 6). -/
def get_meme_data (archive : Archive) (memeId : String) : Option Meme :=
  archive.find? (fun m => m.id == memeId)

/-- Modelled from the spec: `utils.add_meme_data` inserts a new row into
the Durable Archive. -/
def add_meme_data (archive : Archive) (post : Meme) : Archive :=
  archive ++ [post]

/-- Modelled from the spec: `utils.update_meme_data` updates the archive
row with the record's identifier. -/
def update_meme_data (archive : Archive) (rec : Meme) : Archive :=
  archive.map (fun m => if m.id == rec.id then rec else m)

/-- Modelled from the spec: `utils.has_been_posted_to_slack` — "no
identifier sharing this URL has `publishedToChannel = true`" is the
condition for re-staging (spec section 4.1), so the check is whether any
archive row sharing the record's URL is already published. -/
def has_been_posted_to_slack (archive : Archive) (rec : Meme) : Bool :=
  archive.any (fun m => m.url == rec.url && m.posted_to_slack)

/-- Modelled from the spec: `utils.set_posted_to_slack` flips the
publish flag of the archive row with the given identifier. -/
def set_posted_to_slack (archive : Archive) (memeId : String) (b : Bool) : Archive :=
  archive.map (fun m => if m.id == memeId then { m with posted_to_slack := b } else m)

/-- Modelled from the spec: `utils.get_meme_data_from_url` — the archive
"queried ... by URL (possibly multi-valued)"; returns every row whose
stored URL matches (`scrape_reddit.update_reddit_meme` docstring:
"a list of memes whose urls matched the passed"). -/
def get_meme_data_from_url (archive : Archive) (url : String) : List Meme :=
  archive.filter (fun m => m.url == url)

/-- Python `x or 1` on an integer: `x` unless it is falsy (zero). -/
def orOne (x : Int) : Int := if x = 0 then 1 else x

/-- The merge step of `scrape_reddit.scrape` lines 112-119 for a
previously archived record: recompute the high-water mark from the
fresh score, the stored high-water mark and the stored score (each
run through Python's `or 1`), then take the fresh score, ratio and
update timestamp. -/
def mergeUpdate (prev post : Meme) : Meme :=
  { prev with
    highest_ups := max (orOne post.ups) (max (orOne prev.highest_ups) (orOne prev.ups)),
    ups := post.ups,
    upvote_ratio := post.upvote_ratio,
    last_updated := post.last_updated }

/-- The per-record refresh of `scrape_reddit.update_reddit_meme`
lines 152-156: new score from the content source, high-water mark
`max(stored highest, new score)` (dict `get` default 0 never fires:
the field is always present), fresh ratio and timestamp. -/
def refreshUpdate (md : Meme) (newUps newRatio : Int) (now : Nat) : Meme :=
  { md with
    ups := newUps,
    highest_ups := max md.highest_ups newUps,
    upvote_ratio := newRatio,
    last_updated := now }

/-- One later observation of an identifier already in the archive:
either a scrape-pass merge with a freshly fetched post
(`scrape` lines 112-119) or a detail refresh with a fresh score and
ratio (`update_reddit_meme` lines 152-156). -/
inductive Obs where
  | merge (post : Meme)
  | refresh (ups ratio : Int) (now : Nat)
deriving DecidableEq

/-- Apply one observation to the stored archive row. -/
def applyObs (rec : Meme) : Obs → Meme
  | .merge post => mergeUpdate rec post
  | .refresh u r t => refreshUpdate rec u r t

/-- The score carried by an observation. -/
def obsUps : Obs → Int
  | .merge post => post.ups
  | .refresh u _ _ => u

/-- Database plus staging file, the state mutated by one ingestion pass. -/
structure DB where
  archive : Archive
  staging : Staging
deriving DecidableEq

/-- One fetched record handled by `scrape_reddit.scrape` lines 103-125:
absent identifier → archive insert, staged (keyed by URL) if not adult;
present identifier → merge into the archive, then re-staged unless the
archived row is adult or some published archive row shares the URL. -/
def processPost (db : DB) (post : Meme) : DB :=
  match get_meme_data db.archive post.id with
  | none =>
      let archive := add_meme_data db.archive post
      let staging :=
        if !post.over_18 then dictInsert db.staging post.url post else db.staging
      ⟨archive, staging⟩
  | some prev =>
      let prev' := mergeUpdate prev post
      let archive := update_meme_data db.archive prev'
      let staging :=
        if !(prev'.over_18 || has_been_posted_to_slack archive prev') then
          dictInsert db.staging post.url post
        else db.staging
      ⟨archive, staging⟩

/-- The database-merge phase of one ingestion pass over the fetched
records, in fetch order (per-sub exception handling not modelled: no
modelled operation throws). -/
def scrapeMerge (db : DB) (posts : List Meme) : DB :=
  posts.foldl processPost db

/-! ### Settings, thresholds and meme counting (`slackbot.py`) -/

/-- The `threshold_upvotes` mapping of the Settings Store: lower-cased
sub names (and the key `"global"`) to integer thresholds. -/
abbrev Thresholds := List (String × Int)

/-- `thresholds['global']`.  The Settings record always carries a global
threshold (spec section 3); the `getD 0` default stands in for the
KeyError an absent key would raise and is never exercised under that
invariant. -/
def globalThreshold (th : Thresholds) : Int :=
  (dictGet th "global").getD 0

/-- `thresholds.get(key, thresholds['global'])` — callers pass the
already lower-cased sub name, exactly as the Python call sites do. -/
def subThreshold (th : Thresholds) (key : String) : Int :=
  (dictGet th key).getD (globalThreshold th)

/-- `str.lower()`.  (`String.toLower` itself is defined by well-founded
recursion and is opaque to kernel reduction, so the character map is
written out over the string's underlying character list.) -/
def pyLower (s : String) : String :=
  ⟨s.data.map Char.toLower⟩

/-- A `collections.Counter`: string keys to natural counts. -/
abbrev Counters := List (String × Nat)

/-- `counter[k] += 1`: increment in place if present, else append with
count 1. -/
def bump : Counters → String → Counters
  | [], k => [(k, 1)]
  | (k', v) :: rest, k =>
    if k' == k then (k', v + 1) :: rest else (k', v) :: bump rest k

/-- `sum(counter.values())`. -/
def sumValues (c : Counters) : Nat :=
  (c.map (·.2)).sum

/-- `AutoMemer.count_memes` (slackbot.py lines 322-347): walk the
Staging Store, skip adult records, count every record under its
lower-cased sub and additionally as postable when its high-water mark
meets (`>=`) the applicable threshold. -/
def countStep (th : Thresholds) (acc : Counters × Counters)
    (p : String × Meme) : Counters × Counters :=
  let data := p.2
  if data.over_18 then acc
  else
    let sub := pyLower data.sub
    let t := subThreshold th sub
    let total := bump acc.1 sub
    let postable := if data.highest_ups ≥ t then bump acc.2 sub else acc.2
    (total, postable)

def count_memes (staging : Staging) (th : Thresholds) : Counters × Counters :=
  staging.foldl (countStep th) ([], [])

/-- Budget resolution of `AutoMemer.add_new_memes_to_queue` lines
213-215: `limit or max(10, int(0.2 * sum(postable.values())))`.  A
passed limit of `none` (Python `None`) or `0` is falsy and falls back to
the default; `int(0.2 * s)` for the nonnegative count `s` is modelled
exactly as `s / 5` (the float multiplication is treated as exact). -/
def resolveBudget (staging : Staging) (th : Thresholds) (limit : Option Int) : Int :=
  let postable := (count_memes staging th).2
  let dflt : Int := max 10 (Int.ofNat (sumValues postable / 5))
  match limit with
  | some l => if l = 0 then dflt else l
  | none => dflt

/-! ### Admission & Release Engine (`AutoMemer.add_new_memes_to_queue`) -/

/-- First occurrences, in order, of the keys of a `defaultdict` filled
while iterating the sorted staging items (CPython dict key order is
insertion order). -/
def keysInOrderAux : List String → List String → List String
  | [], _ => []
  | s :: rest, seen =>
    if s ∈ seen then keysInOrderAux rest seen else s :: keysInOrderAux rest (s :: seen)

def keysInOrder (l : List String) : List String :=
  keysInOrderAux l []

/-- `memes_by_sub`: the staging items sorted by `created_utc` (lines
225-229), partitioned by their `sub` field; each group keeps the sorted
(oldest-first) order. -/
def buildQueues (sortedMemes : List Meme) : List (String × List Meme) :=
  (keysInOrder (sortedMemes.map (·.sub))).map
    (fun s => (s, sortedMemes.filter (fun m => m.sub == s)))

/-- The inner `while memes_by_sub[sub]` loop (lines 237-263): pop memes
from the front until one clears the strict threshold (returned as the
released meme) or the list is exhausted.  Returns the remaining list,
every popped (inspected) meme in pop order, and the released meme. -/
def popUntilEligible (t : Int) : List Meme → List Meme × List Meme × Option Meme
  | [] => ([], [], none)
  | m :: rest =>
    if m.highest_ups > t then (rest, [m], some m)
    else
      let r := popUntilEligible t rest
      (r.1, m :: r.2.1, r.2.2)

/-- Walk `sub_ind, sub_ind+1, ...` (mod the number of subs) for at most
`k` steps and return the first index whose queue is nonempty.  The
Python loop visits empty subs as no-ops (the inner `while` body never
runs), so skipping them directly is observationally identical. -/
def findNext (qs : List (String × List Meme)) (start : Nat) : Nat → Option Nat
  | 0 => none
  | Nat.succ k =>
    match qs.get? (start % qs.length) with
    | none => none
    | some p => if p.2.isEmpty then findNext qs (start + 1) k else some (start % qs.length)

/-- `del scraped_memes[meme['url']]` for each inspected meme. -/
def delUrls (scraped : Staging) (ms : List Meme) : Staging :=
  ms.foldl (fun s m => dictDel s m.url) scraped

/-- Result of a release cycle: the rewritten staging file, the updated
archive, the meme messages enqueued (in order), the identifiers marked
published (in order), and every meme inspected (popped and deleted). -/
structure RelOut where
  scraped : Staging
  archive : Archive
  msgs : List Meme
  pubIds : List String
  inspected : List Meme
deriving DecidableEq

/-- The `while limit > 0 and any(memes_by_sub.values())` loop of
`add_new_memes_to_queue` (lines 233-264).  `fuel` bounds the recursion;
the wrapper passes one more than the total queued meme count, which the
fuel-sufficiency arguments below show is never exhausted (every
productive visit pops at least one meme). -/
def releaseLoop (th : Thresholds) : Nat → List (String × List Meme) → Nat → Int →
    Staging → Archive → RelOut
  | 0, _, _, _, scraped, archive => ⟨scraped, archive, [], [], []⟩
  | Nat.succ fuel, qs, subInd, limit, scraped, archive =>
    if limit ≤ 0 then ⟨scraped, archive, [], [], []⟩
    else
      match findNext qs subInd qs.length with
      | none => ⟨scraped, archive, [], [], []⟩
      | some i =>
        match qs.get? i with
        | none => ⟨scraped, archive, [], [], []⟩
        | some (name, q) =>
          let t := subThreshold th (pyLower name)
          let r := popUntilEligible t q
          let qs' := qs.set i (name, r.1)
          let scraped' := delUrls scraped r.2.1
          match r.2.2 with
          | some m =>
            let archive' := set_posted_to_slack archive m.id true
            let out := releaseLoop th fuel qs' (i + 1) (limit - 1) scraped' archive'
            ⟨out.scraped, out.archive, m :: out.msgs, m.id :: out.pubIds,
              r.2.1 ++ out.inspected⟩
          | none =>
            let out := releaseLoop th fuel qs' (i + 1) limit scraped' archive
            ⟨out.scraped, out.archive, out.msgs, out.pubIds, r.2.1 ++ out.inspected⟩

/-- Total number of queued memes. -/
def totalQ (qs : List (String × List Meme)) : Nat :=
  (qs.map (fun p => p.2.length)).sum

/-- Sorting relation of line 227 (`key=lambda x: x[1]['created_utc']`). -/
def byCreated (a b : String × Meme) : Prop :=
  a.2.created_utc ≤ b.2.created_utc

instance : DecidableRel byCreated := fun _ _ => Nat.decLe _ _

/-- `AutoMemer.add_new_memes_to_queue` (lines 212-283) without its I/O:
resolve the budget, sort the staged memes by creation time, group them
by sub, run the round-robin release loop, and return its result paired
with the budget that was used.  (The "ran out of memes" user notice and
the exception path are not modelled; no modelled operation throws.) -/
def add_new_memes_to_queue (archive : Archive) (scraped : Staging) (th : Thresholds)
    (limit : Option Int) : RelOut × Int :=
  let budget := resolveBudget scraped th limit
  let sortedMemes := (List.insertionSort byCreated scraped).map (·.2)
  let qs := buildQueues sortedMemes
  (releaseLoop th (totalQ qs + 1) qs 0 budget scraped archive, budget)

/-- The postable predicate of `count_memes`: not adult and high-water
mark at least the applicable threshold (non-strict). -/
def postablePred (th : Thresholds) (m : Meme) : Bool :=
  !m.over_18 && m.highest_ups ≥ subThreshold th (pyLower m.sub)

/-- The release-eligibility predicate of `add_new_memes_to_queue`:
high-water mark strictly above the applicable threshold (the engine
applies no adult check). -/
def eligible (th : Thresholds) (m : Meme) : Bool :=
  m.highest_ups > subThreshold th (pyLower m.sub)

/-! ### Detail refresh and the `details` command -/

/-- `scrape_reddit.update_reddit_meme` (lines 138-164): fetch every
archive row matching the URL, refresh each from the content source
(`fetch` maps an identifier to the fresh score and ratio), write each
row back, and return the refreshed list.  The Python function returns
`None` only through its exception path (it falls off the end after
`log_error`); the non-exceptional result is always the (possibly empty)
list, hence `some`. -/
def update_reddit_meme (archive : Archive) (memeUrl : String)
    (fetch : String → Int × Int) (now : Nat) : Archive × Option (List Meme) :=
  let matching := get_meme_data_from_url archive memeUrl
  let updated := matching.map (fun md => refreshUpdate md (fetch md.id).1 (fetch md.id).2 now)
  let archive' := updated.foldl update_meme_data archive
  (archive', some updated)

/-- `AutoMemer._command_details` (lines 510-531) after argument
parsing: refresh every record matching the URL and render either the
permalinks or the full field dumps; the "could find any data" reply is
produced only when the refresh returned `None`.  The rendered field
dump is abbreviated to the stable `link`/`url` fields (string
formatting of every field is irrelevant to the verified claims). -/
def command_details (archive : Archive) (memeUrl : String)
    (fetch : String → Int × Int) (now : Nat) (linkOnly : Bool) : String × Archive :=
  let r := update_reddit_meme archive memeUrl fetch now
  match r.2 with
  | none => ("I could find any data for this url: `" ++ memeUrl ++ "`, sorry\n", r.1)
  | some memeData =>
    if linkOnly then
      (String.join (memeData.map (fun m => m.link ++ "\n")), r.1)
    else
      (String.join (memeData.map (fun m => m.url ++ "\n")), r.1)

/-! ### Threshold mutation (`AutoMemer._command_set_threshold_to`) -/

/-- `AutoMemer._command_set_threshold_to` (lines 491-508): look up the
scope's current value with the *string* `'global'` as the absent-key
sentinel (modelled by `Option Int`); in increase mode add the old value,
falling back to the global threshold when the scope has no entry yet;
clamp at 1; store.  Returns (old, new, updated thresholds). -/
def set_threshold_to (th : Thresholds) (upvoteValue : Int) (sub : String)
    (increase : Bool) : Option Int × Int × Thresholds :=
  let old := dictGet th sub
  let proposed :=
    if increase then
      match old with
      | none => upvoteValue + globalThreshold th
      | some o => upvoteValue + o
    else upvoteValue
  let newT := max 1 proposed
  (old, newT, dictInsert th sub newT)

/-! ### The delivery loop tick (`AutoMemer.run`) -/

/-- The scheduling flags of `AutoMemer.run`. -/
structure TickFlags where
  scraped_reddit : Bool
  added_memes_to_queue : Bool
deriving DecidableEq

/-- What one iteration of the inner `while True` loop of `AutoMemer.run`
(lines 91-124) triggers, plus the flag values it leaves behind. -/
structure TickOut where
  scrapeStarted : Bool
  releaseInvoked : Bool
  flags : TickFlags
deriving DecidableEq

/-- One iteration of the inner loop of `AutoMemer.run` at the given
wall-clock minute.  Lines 92 and 94 rebind `scraped_reddit` and
`added_memes_to_queue` to `False` at the top of every iteration, so the
flag values carried over from the previous iteration (`prev`) are
discarded before the modulo checks of lines 101-121 run. -/
def loopIteration (_prev : TickFlags) (minute : Nat) (postInterval : Nat) : TickOut :=
  let scraped_reddit := false
  let added_memes_to_queue := false
  let scrapePart : Bool × Bool :=
    if minute % 10 = 0 && !scraped_reddit then (true, true)
    else if minute % 10 > 0 then (false, false)
    else (false, scraped_reddit)
  let releasePart : Bool × Bool :=
    if minute % postInterval = 0 && !added_memes_to_queue then (true, true)
    else if minute % postInterval > 0 && added_memes_to_queue then (false, false)
    else (false, added_memes_to_queue)
  ⟨scrapePart.1, releasePart.1, ⟨scrapePart.2, releasePart.2⟩⟩

/-- All memes held in a queue family, in queue order. -/
def qMemes (qs : List (String × List Meme)) : List Meme :=
  (qs.map (·.2)).flatten

/-- The key list of a staging store. -/
def stKeys (s : Staging) : List String :=
  s.map (·.1)

/-- The URLs of all queued memes. -/
def qUrls (qs : List (String × List Meme)) : List String :=
  (qMemes qs).map (·.url)

/-- Number of release-eligible memes in one queue, judged — as the loop
does — by the threshold of the queue's own sub name. -/
def qElig (th : Thresholds) (p : String × List Meme) : Nat :=
  p.2.countP (fun m => decide (m.highest_ups > subThreshold th (pyLower p.1)))

/-- Number of release-eligible memes across a queue family. -/
def eligCountQ (th : Thresholds) (qs : List (String × List Meme)) : Nat :=
  (qs.map (qElig th)).sum

/-- The loop invariant relating the staging dict to the queue family:
staging keys are distinct, queued URLs are distinct, and every queued
URL is a staging key.  It holds for the queues `add_new_memes_to_queue`
builds from a well-formed staging dict (keys are the records' URLs). -/
def StagingInv (scraped : Staging) (qs : List (String × List Meme)) : Prop :=
  (stKeys scraped).Nodup ∧ (qUrls qs).Nodup ∧ ∀ u ∈ qUrls qs, u ∈ stKeys scraped

/-- Concrete record builder used in counterexamples and witnesses: the
uninteresting text fields are fixed, the fields the claims quantify over
are parameters.  A freshly fetched record (`scrape` lines 65-80) has
`highest_ups = ups` and `posted_to_slack = false`. -/
def mkMeme (memeId sub url : String) (ups highest : Int) (adult : Bool)
    (created : Nat) (posted : Bool) : Meme :=
  { id := memeId, sub := sub, url := url, title := "t", ups := ups,
    highest_ups := highest, over_18 := adult, upvote_ratio := 0,
    author := "a", link := "l", created_utc := created, recorded := 0,
    last_updated := 0, posted_to_slack := posted }

/-! ### Basic dictionary lemmas -/

theorem find?_append_of_none {α : Type} (p : α → Bool) :
    ∀ l₁ l₂ : List α, l₁.find? p = none → (l₁ ++ l₂).find? p = l₂.find? p
  | [], _, _ => rfl
  | a :: l₁, l₂, h => by
    rcases hpa : p a with _ | _
    · rw [List.find?_cons_of_neg _ (by simp [hpa])] at h
      rw [List.cons_append, List.find?_cons_of_neg _ (by simp [hpa])]
      exact find?_append_of_none p l₁ l₂ h
    · rw [List.find?_cons_of_pos _ hpa] at h
      exact absurd h (by simp)

theorem dictGet_dictInsert_self {α : Type} (s : List (String × α)) (k : String) (v : α) :
    dictGet (dictInsert s k v) k = some v := by
  by_cases h : s.any (fun p => p.1 == k) = true
  · have hsome : ∃ p₀, s.find? (fun p => p.1 == k) = some p₀ := by
      rw [← Option.isSome_iff_exists, List.find?_isSome]
      simpa using h
    obtain ⟨p₀, hp₀⟩ := hsome
    have hpred : p₀.1 = k := by
      have := List.find?_some hp₀
      simpa using this
    have hrepl : ((fun p : String × α => p.1 == k) ∘
        fun p => if p.1 == k then (p.1, v) else p) = fun p => p.1 == k := by
      funext p
      by_cases hpk : p.1 = k <;> simp [Function.comp, hpk]
    rw [dictGet, dictInsert, if_pos h, List.find?_map, hrepl, hp₀, Option.map_map]
    simp [Function.comp, hpred]
  · have hnone : s.find? (fun p => p.1 == k) = none := by
      rw [List.find?_eq_none]
      intro x hx hpx
      exact h (List.any_eq_true.mpr ⟨x, hx, hpx⟩)
    rw [dictGet, dictInsert, if_neg h, find?_append_of_none _ _ _ hnone,
      List.find?_cons_of_pos _ (by simp)]
    rfl

theorem get_meme_data_add_of_ne (archive : Archive) (p : Meme) (i : String)
    (h : get_meme_data archive i = none) (hne : p.id ≠ i) :
    get_meme_data (add_meme_data archive p) i = none := by
  unfold get_meme_data add_meme_data at *
  rw [find?_append_of_none _ _ _ h,
    List.find?_cons_of_neg _ (by simpa using hne), List.find?_nil]

theorem orOne_of_ne_zero {x : Int} (h : x ≠ 0) : orOne x = x := by
  simp [orOne, h]

theorem max_ne_zero {a b : Int} (ha : a ≠ 0) (hb : b ≠ 0) : max a b ≠ 0 := by
  rcases le_total a b with h | h
  · rw [max_eq_right h]; exact hb
  · rw [max_eq_left h]; exact ha

/-! ### C1 — staging collision on the new-record insert path -/

/-- C1 (counterexample): two records new to the archive, with distinct
identifiers but the same content URL, are ingested in one pass; the
record staged by the earlier insert IS overwritten by the later one
(`new_memes[post['url']] = post`, line 109, is a plain dict assignment),
contradicting the claimed first-writer-wins semantics. -/
theorem staging_first_writer_counterexample :
    let p1 := mkMeme "id1" "s" "u" 3 3 false 1 false
    let p2 := mkMeme "id2" "s" "u" 7 7 false 2 false
    dictGet (scrapeMerge ⟨[], []⟩ [p1, p2]).staging "u" = some p2 ∧ p1 ≠ p2 := by
  decide

/-- C1 (amended): during one ingestion pass, when two fetched non-adult
records with distinct identifiers that are both absent from the Durable
Archive share a content URL, the later insert OVERWRITES the earlier
record in the Staging Store (last writer wins). -/
theorem staging_insert_last_writer_wins (db : DB) (p1 p2 : Meme)
    (h1 : get_meme_data db.archive p1.id = none)
    (h2 : get_meme_data db.archive p2.id = none)
    (hne : p1.id ≠ p2.id) (hurl : p1.url = p2.url)
    (ha1 : p1.over_18 = false) (ha2 : p2.over_18 = false) :
    dictGet (scrapeMerge db [p1, p2]).staging p1.url = some p2 := by
  have h2' : get_meme_data (add_meme_data db.archive p1) p2.id = none :=
    get_meme_data_add_of_ne _ _ _ h2 hne
  show dictGet (processPost (processPost db p1) p2).staging p1.url = some p2
  rw [hurl]
  simp only [processPost, h1, h2', ha1, ha2, Bool.not_false, if_true]
  exact dictGet_dictInsert_self _ _ _

/-- Witness for `staging_insert_last_writer_wins`: two new records
sharing URL "u"; the staged value is the later record. -/
theorem staging_insert_last_writer_wins_witness :
    dictGet (scrapeMerge ⟨[], []⟩ [mkMeme "a" "s" "u" 1 1 false 0 false,
      mkMeme "b" "s" "u" 2 2 false 0 false]).staging "u"
      = some (mkMeme "b" "s" "u" 2 2 false 0 false) := by
  exact staging_insert_last_writer_wins ⟨[], []⟩
    (mkMeme "a" "s" "u" 1 1 false 0 false) (mkMeme "b" "s" "u" 2 2 false 0 false)
    (by decide) (by decide) (by decide) (by decide) (by decide) (by decide)

/-! ### C2 — the high-water mark invariant -/

/-- C2 (counterexample): an identifier is observed twice with a score of
zero (fetch, then a scrape-pass merge of the same record).  The merge of
lines 112-116 runs every operand through Python's `x or 1`, so the
stored high-water mark becomes 1 even though the maximum score ever
observed is 0. -/
theorem highest_ups_counterexample :
    let rec0 := mkMeme "x" "s" "u" 0 0 false 0 false
    (processPost ⟨[rec0], []⟩ rec0).archive.map (·.highest_ups) = [1] ∧
      max rec0.ups rec0.ups = 0 := by
  decide

theorem highest_ups_fold_invariant (obs : List Obs) :
    ∀ rec : Meme, rec.ups ≠ 0 → rec.highest_ups ≠ 0 →
    rec.ups ≤ rec.highest_ups → (∀ o ∈ obs, obsUps o ≠ 0) →
    (obs.foldl applyObs rec).highest_ups = (obs.map obsUps).foldl max rec.highest_ups ∧
    (obs.foldl applyObs rec).ups ≠ 0 ∧
    (obs.foldl applyObs rec).highest_ups ≠ 0 ∧
    (obs.foldl applyObs rec).ups ≤ (obs.foldl applyObs rec).highest_ups := by
  induction obs with
  | nil => intro rec h1 h2 h3 _; exact ⟨rfl, h1, h2, h3⟩
  | cons o rest ih =>
    intro rec h1 h2 h3 hall
    have hou : obsUps o ≠ 0 := hall o (List.mem_cons_self o rest)
    have hrest : ∀ x ∈ rest, obsUps x ≠ 0 := fun x hx => hall x (List.mem_cons_of_mem o hx)
    have step : (applyObs rec o).highest_ups = max rec.highest_ups (obsUps o) ∧
        (applyObs rec o).ups = obsUps o := by
      cases o with
      | merge post =>
        simp only [obsUps] at hou
        refine ⟨?_, rfl⟩
        show max (orOne post.ups) (max (orOne rec.highest_ups) (orOne rec.ups)) =
          max rec.highest_ups post.ups
        rw [orOne_of_ne_zero hou, orOne_of_ne_zero h2, orOne_of_ne_zero h1,
          max_eq_left h3, max_comm]
      | refresh u r t => exact ⟨rfl, rfl⟩
    have h2' : (applyObs rec o).highest_ups ≠ 0 := by
      rw [step.1]; exact max_ne_zero h2 hou
    have h1' : (applyObs rec o).ups ≠ 0 := by rw [step.2]; exact hou
    have h3' : (applyObs rec o).ups ≤ (applyObs rec o).highest_ups := by
      rw [step.1, step.2]; exact le_max_right _ _
    have hmain := ih (applyObs rec o) h1' h2' h3' hrest
    rw [step.1] at hmain
    exact hmain

/-- C2 (amended): for every archive record whose scores are observed to
be nonzero throughout (initial fetch plus any sequence of scrape-pass
merges and detail refreshes), the stored `highest_ups` equals exactly
the maximum of all `ups` values ever observed for the identifier.  (The
counterexample shows the computed value can exceed that maximum when a
zero score is observed: the merge path replaces falsy operands by 1.) -/
theorem highest_ups_is_max_observed (init : Meme) (obs : List Obs)
    (hfetch : init.highest_ups = init.ups) (h0 : init.ups ≠ 0)
    (hobs : ∀ o ∈ obs, obsUps o ≠ 0) :
    (obs.foldl applyObs init).highest_ups = (obs.map obsUps).foldl max init.ups := by
  have h2 : init.highest_ups ≠ 0 := by rw [hfetch]; exact h0
  have h3 : init.ups ≤ init.highest_ups := by rw [hfetch]
  have := (highest_ups_fold_invariant obs init h0 h2 h3 hobs).1
  rwa [hfetch] at this

/-- Witness for `highest_ups_is_max_observed`: a record fetched with
score 5, then merged at score 7 and refreshed at score 3, stores
high-water mark 7 = max(5, 7, 3). -/
theorem highest_ups_is_max_observed_witness :
    ([Obs.merge (mkMeme "x" "s" "u" 7 7 false 0 false),
      Obs.refresh 3 0 9].foldl applyObs (mkMeme "x" "s" "u" 5 5 false 0 false)).highest_ups
    = ([Obs.merge (mkMeme "x" "s" "u" 7 7 false 0 false),
        Obs.refresh 3 0 9].map obsUps).foldl max (mkMeme "x" "s" "u" 5 5 false 0 false).ups := by
  exact highest_ups_is_max_observed (mkMeme "x" "s" "u" 5 5 false 0 false)
    [Obs.merge (mkMeme "x" "s" "u" 7 7 false 0 false), Obs.refresh 3 0 9]
    (by decide) (by decide) (by decide)

/-! ### C4 — round-robin fairness -/

/-- C4: with source "a" holding three eligible memes (oldest-first
i1 < i2 < i3) and source "b" holding one (i4), a release cycle with
budget 2 enqueues i1 then i4 — one meme per source per round, oldest
first — not i1 then i2. -/
theorem round_robin_release_order :
    (add_new_memes_to_queue [] [
      ("u1", mkMeme "i1" "a" "u1" 10 10 false 1 false),
      ("u2", mkMeme "i2" "a" "u2" 10 10 false 2 false),
      ("u3", mkMeme "i3" "a" "u3" 10 10 false 3 false),
      ("u4", mkMeme "i4" "b" "u4" 10 10 false 4 false)]
      [("global", 5)] (some 2)).1.msgs
    = [mkMeme "i1" "a" "u1" 10 10 false 1 false,
       mkMeme "i4" "b" "u4" 10 10 false 4 false] := by
  decide

/-! ### C5 — the per-minute trigger guards of `AutoMemer.run` -/

/-- C5 (code bug, evaluated): at minute 20 with publish interval 10, a
loop iteration triggers both the ingestion pipeline and the release
engine and leaves both guard flags set; the next iteration in the same
minute nevertheless triggers both again, because lines 92-94 rebind the
flags to `False` at the top of every iteration.  The claim's "at most
once per minute" fails on any minute with two ticks. -/
theorem run_loop_triggers_twice_in_minute :
    (loopIteration ⟨false, false⟩ 20 10).scrapeStarted = true ∧
    (loopIteration ⟨false, false⟩ 20 10).releaseInvoked = true ∧
    (loopIteration ⟨false, false⟩ 20 10).flags = ⟨true, true⟩ ∧
    (loopIteration (loopIteration ⟨false, false⟩ 20 10).flags 20 10).scrapeStarted = true ∧
    (loopIteration (loopIteration ⟨false, false⟩ 20 10).flags 20 10).releaseInvoked = true := by
  decide

/-! ### C6 — `details` for an unknown URL -/

/-- C6 (code bug, evaluated): for a `details` command whose URL matches
no archive record, the refresh returns the documented empty list (not
`None`), so the handler's reply is empty — the "could find any data"
text is only produced on the `None` (exception) path — and no store is
mutated. -/
theorem details_unknown_url_reply_empty :
    (command_details [mkMeme "x" "s" "urlA" 5 5 false 0 false] "urlB"
      (fun _ => (0, 0)) 9 false).1 = "" ∧
    (command_details [mkMeme "x" "s" "urlA" 5 5 false 0 false] "urlB"
      (fun _ => (0, 0)) 9 false).2 = [mkMeme "x" "s" "urlA" 5 5 false 0 false] := by
  decide

/-! ### C7 — threshold mutation arithmetic -/

/-- C7: `set threshold n` stores `max(1, n)` for any scope; `increase
threshold n` stores `max(1, old + n)` where `old` is the scope's
existing entry, or the global threshold when the scope has none; and the
concrete chain `set 5`, `increase 3`, `increase -100` on one scope
yields 5, then 8, then 1. -/
theorem threshold_mutation_arithmetic (th : Thresholds) (sub : String) (n : Int) :
    ((set_threshold_to th n sub false).2.1 = max 1 n ∧
      dictGet (set_threshold_to th n sub false).2.2 sub = some (max 1 n)) ∧
    (∀ o : Int, dictGet th sub = some o →
      (set_threshold_to th n sub true).2.1 = max 1 (o + n) ∧
      dictGet (set_threshold_to th n sub true).2.2 sub = some (max 1 (o + n))) ∧
    (dictGet th sub = none → ∀ g : Int, dictGet th "global" = some g →
      (set_threshold_to th n sub true).2.1 = max 1 (g + n) ∧
      dictGet (set_threshold_to th n sub true).2.2 sub = some (max 1 (g + n))) ∧
    ((set_threshold_to [("global", (10 : Int))] 5 "a" false).2.1 = 5 ∧
      (set_threshold_to
        (set_threshold_to [("global", (10 : Int))] 5 "a" false).2.2 3 "a" true).2.1 = 8 ∧
      (set_threshold_to (set_threshold_to
        (set_threshold_to [("global", (10 : Int))] 5 "a" false).2.2 3 "a" true).2.2
        (-100) "a" true).2.1 = 1) := by
  refine ⟨⟨rfl, dictGet_dictInsert_self _ _ _⟩, ?_, ?_, by decide⟩
  · intro o ho
    have hval : (set_threshold_to th n sub true).2.1 = max 1 (o + n) := by
      simp [set_threshold_to, ho, Int.add_comm n o]
    refine ⟨hval, ?_⟩
    have hstore := dictGet_dictInsert_self th sub (set_threshold_to th n sub true).2.1
    rw [hval] at hstore
    simpa [set_threshold_to, ho, Int.add_comm n o] using hstore
  · intro ho g hg
    have hglob : globalThreshold th = g := by simp [globalThreshold, hg]
    have hval : (set_threshold_to th n sub true).2.1 = max 1 (g + n) := by
      simp [set_threshold_to, ho, hglob, Int.add_comm n g]
    refine ⟨hval, ?_⟩
    have hstore := dictGet_dictInsert_self th sub (set_threshold_to th n sub true).2.1
    rw [hval] at hstore
    simpa [set_threshold_to, ho, hglob, Int.add_comm n g] using hstore

/-- Witness for `threshold_mutation_arithmetic`: increasing by 3 on a
scope whose override is 5 stores 8; increasing by 7 on a scope with no
override and global 10 stores 17. -/
theorem threshold_mutation_arithmetic_witness :
    (set_threshold_to [("global", (10 : Int)), ("a", 5)] 3 "a" true).2.1 = max 1 (5 + 3) ∧
    (set_threshold_to [("global", (10 : Int))] 7 "b" true).2.1 = max 1 (10 + 7) := by
  exact ⟨((threshold_mutation_arithmetic [("global", 10), ("a", 5)] "a" 3).2.1 5
      (by decide)).1,
    ((threshold_mutation_arithmetic [("global", 10)] "b" 7).2.2.1 (by decide) 10
      (by decide)).1⟩

/-! ### Lemmas about the release-loop components -/

theorem pue_decomp (t : Int) : ∀ q : List Meme,
    (popUntilEligible t q).2.1 ++ (popUntilEligible t q).1 = q
  | [] => rfl
  | m :: rest => by
    by_cases h : m.highest_ups > t
    · simp [popUntilEligible, h]
    · simp only [popUntilEligible, if_neg h]
      simpa using pue_decomp t rest

theorem pue_rel_none_rem (t : Int) : ∀ q : List Meme,
    (popUntilEligible t q).2.2 = none → (popUntilEligible t q).1 = []
  | [] => fun _ => rfl
  | m :: rest => by
    by_cases h : m.highest_ups > t
    · simp [popUntilEligible, h]
    · simp only [popUntilEligible, if_neg h]
      exact fun hn => pue_rel_none_rem t rest hn

theorem pue_countP (t : Int) : ∀ q : List Meme,
    ((popUntilEligible t q).2.1).countP (fun m => decide (m.highest_ups > t))
      = if (popUntilEligible t q).2.2.isSome then 1 else 0
  | [] => rfl
  | m :: rest => by
    by_cases h : m.highest_ups > t
    · simp [popUntilEligible, h]
    · simp only [popUntilEligible, if_neg h]
      rw [List.countP_cons]
      simp [h, pue_countP t rest]

theorem pue_rel_mem (t : Int) : ∀ (q : List Meme) (m : Meme),
    (popUntilEligible t q).2.2 = some m → m ∈ q
  | [], m => by simp [popUntilEligible]
  | m₀ :: rest, m => by
    by_cases h : m₀.highest_ups > t
    · simp only [popUntilEligible, if_pos h]
      intro hm
      rw [Option.some_inj] at hm
      simp [hm]
    · simp only [popUntilEligible, if_neg h]
      intro hm
      exact List.mem_cons_of_mem _ (pue_rel_mem t rest m hm)

theorem pue_ins_len (t : Int) (q : List Meme)
    (h : (popUntilEligible t q).2.2.isSome = true) :
    1 ≤ (popUntilEligible t q).2.1.length := by
  have hc := pue_countP t q
  rw [if_pos h] at hc
  calc 1 = ((popUntilEligible t q).2.1).countP
        (fun m => decide (m.highest_ups > t)) := hc.symm
    _ ≤ (popUntilEligible t q).2.1.length := List.countP_le_length _

theorem pue_rem_len (t : Int) : ∀ q : List Meme, q ≠ [] →
    (popUntilEligible t q).1.length < q.length
  | [], h => absurd rfl h
  | m :: rest, _ => by
    by_cases h : m.highest_ups > t
    · simp [popUntilEligible, h, Nat.lt_succ_self]
    · simp only [popUntilEligible, if_neg h]
      rcases eq_or_ne rest [] with hr | hr
      · subst hr
        simp [popUntilEligible]
      · exact Nat.lt_trans (pue_rem_len t rest hr) (by simp [Nat.lt_succ_self])

theorem findNext_some_spec (qs : List (String × List Meme)) :
    ∀ (k start i : Nat), findNext qs start k = some i →
      ∃ nq, qs.get? i = some nq ∧ nq.2 ≠ []
  | 0, start, i => by simp [findNext]
  | Nat.succ k, start, i => by
    simp only [findNext]
    cases hg : qs.get? (start % qs.length) with
    | none => simp
    | some p =>
      dsimp only
      by_cases he : p.2.isEmpty
      · rw [if_pos he]
        exact fun h => findNext_some_spec qs k (start + 1) i h
      · rw [if_neg he]
        intro h
        rw [Option.some_inj] at h
        exact ⟨p, by rw [← h]; exact hg, by simpa [List.isEmpty_iff] using he⟩

theorem findNext_none_spec (qs : List (String × List Meme)) :
    ∀ (k start : Nat), findNext qs start k = none →
      ∀ t < k, ∀ nq, qs.get? ((start + t) % qs.length) = some nq → nq.2 = []
  | 0, start, _ => by
    intro t ht
    exact absurd ht (Nat.not_lt_zero t)
  | Nat.succ k, start, h => by
    intro t ht nq hget
    rw [findNext] at h
    cases hg : qs.get? (start % qs.length) with
    | none =>
      have hlen : qs.length = 0 := by
        by_contra hl
        have hm : start % qs.length < qs.length :=
          Nat.mod_lt _ (Nat.pos_of_ne_zero hl)
        rw [List.get?_eq_get hm] at hg
        exact absurd hg (by simp)
      have : qs = [] := List.length_eq_zero.mp hlen
      subst this
      simp at hget
    | some p =>
      rw [hg] at h
      dsimp only at h
      by_cases he : p.2.isEmpty
      · rw [if_pos he] at h
        cases t with
        | zero =>
          rw [Nat.add_zero, hg] at hget
          rw [Option.some_inj] at hget
          subst hget
          exact List.isEmpty_iff.mp he
        | succ t' =>
          have harr : start + 1 + t' = start + (t' + 1) := by omega
          exact findNext_none_spec qs k (start + 1) h t' (by omega) nq
            (by rw [harr]; exact hget)
      · rw [if_neg he] at h
        exact absurd h (by simp)

theorem mod_cover (n s i : Nat) (hn : 0 < n) (hi : i < n) :
    ∃ t, t < n ∧ (s + t) % n = i := by
  by_cases hir : s % n ≤ i
  · refine ⟨i - s % n, by omega, ?_⟩
    rw [Nat.add_mod, Nat.mod_eq_of_lt (show i - s % n < n by omega)]
    have hs : s % n + (i - s % n) = i := by omega
    rw [hs, Nat.mod_eq_of_lt hi]
  · refine ⟨i + n - s % n, ?_, ?_⟩
    · have := Nat.mod_lt s hn
      omega
    · have hlt : i + n - s % n < n := by omega
      rw [Nat.add_mod, Nat.mod_eq_of_lt hlt]
      have hs : s % n + (i + n - s % n) = i + n := by
        have := Nat.mod_lt s hn
        omega
      rw [hs, Nat.add_mod_right, Nat.mod_eq_of_lt hi]

theorem findNext_none_empty (qs : List (String × List Meme)) (start : Nat)
    (h : findNext qs start qs.length = none) : ∀ nq ∈ qs, nq.2 = [] := by
  intro nq hmem
  have hlen : 0 < qs.length := List.length_pos.mpr (by
    rintro rfl
    simp at hmem)
  obtain ⟨⟨i, hilt⟩, hget⟩ := List.mem_iff_get.mp hmem
  obtain ⟨t, ht, hmod⟩ := mod_cover qs.length start i hlen hilt
  refine findNext_none_spec qs qs.length start h t ht nq ?_
  rw [hmod, List.get?_eq_get hilt, hget]

theorem eligCountQ_zero_of_empty (th : Thresholds) :
    ∀ qs : List (String × List Meme), (∀ nq ∈ qs, nq.2 = []) → eligCountQ th qs = 0
  | [], _ => rfl
  | p :: rest, h => by
    have hp : p.2 = [] := h p (List.mem_cons_self _ _)
    have hr := eligCountQ_zero_of_empty th rest
      (fun nq hm => h nq (List.mem_cons_of_mem _ hm))
    simp only [eligCountQ, List.map_cons, List.sum_cons, qElig, hp, List.countP_nil]
    simpa [eligCountQ] using hr

theorem get?_take_drop {α : Type} : ∀ (l : List α) (i : Nat) (a : α),
    l.get? i = some a → l = l.take i ++ a :: l.drop (i + 1)
  | [], i, a => by simp
  | x :: xs, 0, a => by
    intro h
    rw [List.get?_cons_zero, Option.some_inj] at h
    subst h
    simp
  | x :: xs, Nat.succ i, a => by
    intro h
    rw [List.get?_cons_succ] at h
    have := get?_take_drop xs i a h
    calc x :: xs = x :: (xs.take i ++ a :: xs.drop (i + 1)) := by rw [← this]
      _ = (x :: xs).take (i + 1) ++ a :: (x :: xs).drop (i + 2) := by simp

theorem set_take_drop {α : Type} : ∀ (l : List α) (i : Nat) (a b : α),
    l.get? i = some a → l.set i b = l.take i ++ b :: l.drop (i + 1)
  | [], i, a, b => by simp
  | x :: xs, 0, a, b => by
    intro _
    simp
  | x :: xs, Nat.succ i, a, b => by
    intro h
    rw [List.get?_cons_succ] at h
    have := set_take_drop xs i a b h
    calc (x :: xs).set (i + 1) b = x :: xs.set i b := by simp
      _ = x :: (xs.take i ++ b :: xs.drop (i + 1)) := by rw [this]
      _ = (x :: xs).take (i + 1) ++ b :: (x :: xs).drop (i + 2) := by simp

theorem totalQ_append (A B : List (String × List Meme)) :
    totalQ (A ++ B) = totalQ A + totalQ B := by
  simp [totalQ]

theorem totalQ_cons (p : String × List Meme) (qs : List (String × List Meme)) :
    totalQ (p :: qs) = p.2.length + totalQ qs := by
  simp [totalQ]

theorem eligCountQ_append (th : Thresholds) (A B : List (String × List Meme)) :
    eligCountQ th (A ++ B) = eligCountQ th A + eligCountQ th B := by
  simp [eligCountQ]

theorem eligCountQ_cons (th : Thresholds) (p : String × List Meme)
    (qs : List (String × List Meme)) :
    eligCountQ th (p :: qs) = qElig th p + eligCountQ th qs := by
  simp [eligCountQ]

theorem qMemes_append (A B : List (String × List Meme)) :
    qMemes (A ++ B) = qMemes A ++ qMemes B := by
  simp [qMemes]

theorem qMemes_cons (p : String × List Meme) (qs : List (String × List Meme)) :
    qMemes (p :: qs) = p.2 ++ qMemes qs := by
  simp [qMemes]

/-- The release loop enqueues exactly `min(budget, eligible)` messages:
the heart of claim C3, proved by induction on the fuel (which the
wrapper always passes in excess of the total queue size). -/
theorem releaseLoop_msgs_count (th : Thresholds) :
    ∀ (fuel : Nat) (qs : List (String × List Meme)) (subInd : Nat) (limit : Int)
      (scraped : Staging) (archive : Archive), totalQ qs < fuel →
      (releaseLoop th fuel qs subInd limit scraped archive).msgs.length
        = min limit.toNat (eligCountQ th qs) := by
  intro fuel
  induction fuel with
  | zero => intro qs _ _ _ _ h; omega
  | succ fuel ih =>
    intro qs subInd limit scraped archive hfuel
    by_cases hl : limit ≤ 0
    · have h0 : limit.toNat = 0 := by omega
      simp [releaseLoop, hl, h0]
    · simp only [releaseLoop]
      rw [if_neg hl]
      cases hfn : findNext qs subInd qs.length with
      | none =>
        have hempty := findNext_none_empty qs subInd hfn
        have hE := eligCountQ_zero_of_empty th qs hempty
        simp [hE]
      | some i =>
        obtain ⟨nq, hget, hnil⟩ := findNext_some_spec qs qs.length subInd i hfn
        obtain ⟨name, q⟩ := nq
        dsimp only
        rw [hget]
        dsimp only
        have hqd : qs = qs.take i ++ (name, q) :: qs.drop (i + 1) :=
          get?_take_drop _ _ _ hget
        have hq' : q ≠ [] := by simpa using hnil
        set t := subThreshold th (pyLower name) with ht
        set rem := (popUntilEligible t q).1 with hrem
        set ins := (popUntilEligible t q).2.1 with hins
        have hsd : qs.set i (name, rem) = qs.take i ++ (name, rem) :: qs.drop (i + 1) :=
          set_take_drop _ _ _ _ hget
        have htot : totalQ (qs.set i (name, rem)) < totalQ qs := by
          rw [hsd]
          conv_rhs => rw [hqd]
          rw [totalQ_append, totalQ_cons, totalQ_append, totalQ_cons]
          dsimp only
          have hrl := pue_rem_len t q hq'
          rw [← hrem] at hrl
          omega
        have hqsplit : ins ++ rem = q := pue_decomp t q
        have hcq : q.countP (fun m => decide (m.highest_ups > t))
            = ins.countP (fun m => decide (m.highest_ups > t))
              + rem.countP (fun m => decide (m.highest_ups > t)) := by
          rw [← hqsplit, List.countP_append]
        have hEdecomp : eligCountQ th qs
            = eligCountQ th (qs.take i) + q.countP (fun m => decide (m.highest_ups > t))
              + eligCountQ th (qs.drop (i + 1)) := by
          conv_lhs => rw [hqd]
          rw [eligCountQ_append, eligCountQ_cons]
          simp [qElig, ht]
          omega
        have hEset : eligCountQ th (qs.set i (name, rem))
            = eligCountQ th (qs.take i) + rem.countP (fun m => decide (m.highest_ups > t))
              + eligCountQ th (qs.drop (i + 1)) := by
          rw [hsd, eligCountQ_append, eligCountQ_cons]
          simp [qElig, ht]
          omega
        cases hr : (popUntilEligible t q).2.2 with
        | some m =>
          have hins1 : ins.countP (fun m => decide (m.highest_ups > t)) = 1 := by
            rw [hins, pue_countP t q, if_pos (by rw [hr]; rfl)]
          have hrec := ih (qs.set i (name, rem)) (i + 1) (limit - 1)
            (delUrls scraped ins) (set_posted_to_slack archive m.id true)
            (by omega)
          simp only [List.length_cons, hrec]
          omega
        | none =>
          have hins0 : ins.countP (fun m => decide (m.highest_ups > t)) = 0 := by
            rw [hins, pue_countP t q, if_neg (by rw [hr]; simp)]
          have hrec := ih (qs.set i (name, rem)) (i + 1) limit
            (delUrls scraped ins) archive (by omega)
          simp only [hrec]
          omega

/-- Every release marks exactly the released memes published: the
publish-flag updates issued by the loop are, in order, the identifiers
of the enqueued memes. -/
theorem releaseLoop_pubIds (th : Thresholds) :
    ∀ (fuel : Nat) (qs : List (String × List Meme)) (subInd : Nat) (limit : Int)
      (scraped : Staging) (archive : Archive),
      (releaseLoop th fuel qs subInd limit scraped archive).pubIds
        = (releaseLoop th fuel qs subInd limit scraped archive).msgs.map (·.id) := by
  intro fuel
  induction fuel with
  | zero => intro qs subInd limit scraped archive; rfl
  | succ fuel ih =>
    intro qs subInd limit scraped archive
    by_cases hl : limit ≤ 0
    · simp [releaseLoop, hl]
    · simp only [releaseLoop]
      rw [if_neg hl]
      cases hfn : findNext qs subInd qs.length with
      | none => rfl
      | some i =>
        dsimp only
        cases hget : qs.get? i with
        | none => rfl
        | some nq =>
          obtain ⟨name, q⟩ := nq
          dsimp only
          cases hr : (popUntilEligible (subThreshold th (pyLower name)) q).2.2 with
          | some m => simp [ih]
          | none => simp [ih]

/-- At least as many memes are inspected (and so removed from staging)
as are enqueued. -/
theorem releaseLoop_msgs_le_inspected (th : Thresholds) :
    ∀ (fuel : Nat) (qs : List (String × List Meme)) (subInd : Nat) (limit : Int)
      (scraped : Staging) (archive : Archive),
      (releaseLoop th fuel qs subInd limit scraped archive).msgs.length
        ≤ (releaseLoop th fuel qs subInd limit scraped archive).inspected.length := by
  intro fuel
  induction fuel with
  | zero => intro qs subInd limit scraped archive; exact Nat.le_refl _
  | succ fuel ih =>
    intro qs subInd limit scraped archive
    by_cases hl : limit ≤ 0
    · simp [releaseLoop, hl]
    · simp only [releaseLoop]
      rw [if_neg hl]
      cases hfn : findNext qs subInd qs.length with
      | none => exact Nat.le_refl _
      | some i =>
        dsimp only
        cases hget : qs.get? i with
        | none => exact Nat.le_refl _
        | some nq =>
          obtain ⟨name, q⟩ := nq
          dsimp only
          set t := subThreshold th (pyLower name) with ht
          cases hr : (popUntilEligible t q).2.2 with
          | some m =>
            have hil := pue_ins_len t q (by rw [hr]; rfl)
            have := ih (qs.set i (name, (popUntilEligible t q).1)) (i + 1) (limit - 1)
              (delUrls scraped (popUntilEligible t q).2.1)
              (set_posted_to_slack archive m.id true)
            simp only [List.length_cons, List.length_append]
            omega
          | none =>
            have := ih (qs.set i (name, (popUntilEligible t q).1)) (i + 1) limit
              (delUrls scraped (popUntilEligible t q).2.1) archive
            simp only [List.length_append]
            omega

/-- Every enqueued meme comes from the queue family: the loop invents
nothing. -/
theorem releaseLoop_msgs_subset (th : Thresholds) :
    ∀ (fuel : Nat) (qs : List (String × List Meme)) (subInd : Nat) (limit : Int)
      (scraped : Staging) (archive : Archive) (m : Meme),
      m ∈ (releaseLoop th fuel qs subInd limit scraped archive).msgs → m ∈ qMemes qs := by
  intro fuel
  induction fuel with
  | zero => intro qs subInd limit scraped archive m h; simp [releaseLoop] at h
  | succ fuel ih =>
    intro qs subInd limit scraped archive m hm
    by_cases hl : limit ≤ 0
    · simp [releaseLoop, hl] at hm
    · rw [releaseLoop] at hm
      rw [if_neg hl] at hm
      cases hfn : findNext qs subInd qs.length with
      | none => rw [hfn] at hm; simp at hm
      | some i =>
        rw [hfn] at hm
        dsimp only at hm
        cases hget : qs.get? i with
        | none => rw [hget] at hm; simp at hm
        | some nq =>
          obtain ⟨name, q⟩ := nq
          rw [hget] at hm
          dsimp only at hm
          set t := subThreshold th (pyLower name) with ht
          set rem := (popUntilEligible t q).1 with hrem
          have hqd : qs = qs.take i ++ (name, q) :: qs.drop (i + 1) :=
            get?_take_drop _ _ _ hget
          have hsd : qs.set i (name, rem) = qs.take i ++ (name, rem) :: qs.drop (i + 1) :=
            set_take_drop _ _ _ _ hget
          have hqmem : ∀ x, x ∈ qMemes (qs.set i (name, rem)) ∨ x ∈ q → x ∈ qMemes qs := by
            intro x hx
            rw [hqd, qMemes_append, qMemes_cons]
            dsimp only
            simp only [List.mem_append]
            rcases hx with hx | hx
            · rw [hsd, qMemes_append, qMemes_cons] at hx
              dsimp only at hx
              simp only [List.mem_append] at hx
              rcases hx with hx | hx | hx
              · exact Or.inl hx
              · refine Or.inr (Or.inl ?_)
                have hsub : rem ⊆ q := by
                  rw [← pue_decomp t q, ← hrem]
                  exact List.subset_append_right _ _
                exact hsub hx
              · exact Or.inr (Or.inr hx)
            · exact Or.inr (Or.inl hx)
          cases hr : (popUntilEligible t q).2.2 with
          | some m₀ =>
            rw [hr] at hm
            dsimp only at hm
            rw [List.mem_cons] at hm
            rcases hm with hm | hm
            · subst hm
              exact hqmem m (Or.inr (pue_rel_mem t q m hr))
            · exact hqmem m (Or.inl (ih _ _ _ _ _ m hm))
          | none =>
            rw [hr] at hm
            dsimp only at hm
            exact hqmem m (Or.inl (ih _ _ _ _ _ m hm))

/-! ### Deletion accounting for the staging dict -/

theorem stKeys_dictDel (s : Staging) (k : String) :
    stKeys (dictDel s k) = (stKeys s).filter (fun x => x != k) := by
  induction s with
  | nil => rfl
  | cons p rest ih =>
    show ((p :: rest).filter (fun q => q.1 != k)).map (·.1)
      = (p.1 :: rest.map (·.1)).filter (fun x => x != k)
    rw [List.filter_cons, List.filter_cons]
    by_cases h : (p.1 != k) = true
    · rw [if_pos h, if_pos h, List.map_cons]
      exact congrArg (p.1 :: ·) ih
    · rw [if_neg h, if_neg h]
      exact ih

theorem dictDel_of_not_mem (s : Staging) (k : String) (h : k ∉ stKeys s) :
    dictDel s k = s := by
  apply List.filter_eq_self.mpr
  intro p hp
  have hne : p.1 ≠ k := fun he => h (he ▸ List.mem_map_of_mem (·.1) hp)
  simpa using hne

theorem mem_stKeys_dictDel (s : Staging) (k u : String) :
    u ∈ stKeys (dictDel s k) ↔ u ∈ stKeys s ∧ u ≠ k := by
  rw [stKeys_dictDel, List.mem_filter]
  simp

theorem nodup_stKeys_dictDel (s : Staging) (k : String)
    (h : (stKeys s).Nodup) : (stKeys (dictDel s k)).Nodup := by
  rw [stKeys_dictDel]
  exact h.filter _

theorem length_dictDel_of_mem : ∀ (s : Staging) (k : String),
    k ∈ stKeys s → (stKeys s).Nodup → (dictDel s k).length + 1 = s.length
  | [], k => by intro h; simp [stKeys] at h
  | p :: rest, k => by
    intro hmem hnd
    have hmem2 : k ∈ p.1 :: stKeys rest := hmem
    have hnd2 : (p.1 :: stKeys rest).Nodup := hnd
    show ((p :: rest).filter (fun q => q.1 != k)).length + 1 = rest.length + 1
    by_cases h : p.1 = k
    · have hk : k ∉ stKeys rest := by
        subst h
        exact (List.nodup_cons.mp hnd2).1
      rw [List.filter_cons, if_neg (by simp [h])]
      rw [show (rest.filter (fun q => q.1 != k)) = rest from dictDel_of_not_mem rest k hk]
    · have hmem' : k ∈ stKeys rest := by
        rcases List.mem_cons.mp hmem2 with h1 | h1
        · exact absurd h1.symm h
        · exact h1
      have hnd' := (List.nodup_cons.mp hnd2).2
      rw [List.filter_cons, if_pos (by simp [h]), List.length_cons]
      have hrec : (rest.filter (fun q => q.1 != k)).length + 1 = rest.length :=
        length_dictDel_of_mem rest k hmem' hnd'
      omega

theorem delUrls_spec : ∀ (ms : List Meme) (scraped : Staging),
    (stKeys scraped).Nodup → (ms.map (·.url)).Nodup →
    (∀ m ∈ ms, m.url ∈ stKeys scraped) →
    (delUrls scraped ms).length + ms.length = scraped.length ∧
    (stKeys (delUrls scraped ms)).Nodup ∧
    (∀ u, u ∈ stKeys (delUrls scraped ms) ↔ u ∈ stKeys scraped ∧ u ∉ ms.map (·.url))
  | [], scraped => by
    intro h1 _ _
    refine ⟨rfl, h1, fun u => ?_⟩
    simp [delUrls]
  | m :: ms, scraped => by
    intro h1 h2 h3
    have hk : m.url ∈ stKeys scraped := h3 m (List.mem_cons_self _ _)
    have hlen := length_dictDel_of_mem scraped m.url hk h1
    have hnd' := nodup_stKeys_dictDel scraped m.url h1
    have h2c : (m.url :: ms.map (·.url)).Nodup := h2
    have h2' : (ms.map (·.url)).Nodup := (List.nodup_cons.mp h2c).2
    have hnotin : m.url ∉ ms.map (·.url) := (List.nodup_cons.mp h2c).1
    have h3' : ∀ x ∈ ms, x.url ∈ stKeys (dictDel scraped m.url) := by
      intro x hx
      rw [mem_stKeys_dictDel]
      refine ⟨h3 x (List.mem_cons_of_mem _ hx), ?_⟩
      intro he
      exact hnotin (he ▸ List.mem_map_of_mem (·.url) hx)
    have ih := delUrls_spec ms (dictDel scraped m.url) hnd' h2' h3'
    have hstep : delUrls scraped (m :: ms) = delUrls (dictDel scraped m.url) ms := rfl
    rw [hstep]
    refine ⟨by rw [List.length_cons]; omega, ih.2.1, fun u => ?_⟩
    rw [ih.2.2 u, mem_stKeys_dictDel]
    have hmap : (m :: ms).map (·.url) = m.url :: ms.map (·.url) := rfl
    rw [hmap]
    constructor
    · rintro ⟨⟨hu, hne⟩, hnm⟩
      refine ⟨hu, ?_⟩
      rw [List.mem_cons]
      rintro (h | h)
      · exact hne h
      · exact hnm h
    · rintro ⟨hu, hnm⟩
      rw [List.mem_cons] at hnm
      push_neg at hnm
      exact ⟨⟨hu, hnm.1⟩, hnm.2⟩

theorem middle_sublist {α : Type} (A X Y B : List α) :
    List.Sublist X (A ++ (X ++ Y) ++ B) := by
  have h1 : List.Sublist X (X ++ Y) := List.sublist_append_left _ _
  have h2 : List.Sublist (X ++ Y) (A ++ (X ++ Y)) := List.sublist_append_right _ _
  have h3 : List.Sublist (A ++ (X ++ Y)) (A ++ (X ++ Y) ++ B) := List.sublist_append_left _ _
  exact (h1.trans h2).trans h3

theorem drop_middle_sublist {α : Type} (A X Y B : List α) :
    List.Sublist (A ++ Y ++ B) (A ++ (X ++ Y) ++ B) := by
  refine List.Sublist.append ?_ (List.Sublist.refl B)
  exact List.Sublist.append (List.Sublist.refl A) (List.sublist_append_right X Y)

theorem not_mem_middle_of_nodup {α : Type} [DecidableEq α] (A X Y B : List α)
    (h : (A ++ (X ++ Y) ++ B).Nodup) (u : α) (hu : u ∈ A ++ Y ++ B) : u ∉ X := by
  intro hx
  have hle := List.nodup_iff_count_le_one.mp h u
  rw [List.count_append, List.count_append, List.count_append] at hle
  have hX : 0 < X.count u := List.count_pos_iff.mpr hx
  rw [List.mem_append, List.mem_append] at hu
  have hcnt : 0 < A.count u + Y.count u + B.count u := by
    rcases hu with (h1 | h1) | h1
    · have := List.count_pos_iff.mpr h1; omega
    · have := List.count_pos_iff.mpr h1; omega
    · have := List.count_pos_iff.mpr h1; omega
  omega

theorem qUrls_decomp (qs : List (String × List Meme)) (i : Nat) (name : String)
    (q : List Meme) (hget : qs.get? i = some (name, q)) :
    qUrls qs = (qMemes (qs.take i)).map (·.url) ++ q.map (·.url)
      ++ (qMemes (qs.drop (i + 1))).map (·.url) := by
  rw [qUrls]
  conv_lhs => rw [get?_take_drop qs i (name, q) hget]
  rw [qMemes_append, qMemes_cons]
  dsimp only
  simp [List.map_append]

theorem qUrls_set_decomp (qs : List (String × List Meme)) (i : Nat) (name : String)
    (q rem : List Meme) (hget : qs.get? i = some (name, q)) :
    qUrls (qs.set i (name, rem)) = (qMemes (qs.take i)).map (·.url) ++ rem.map (·.url)
      ++ (qMemes (qs.drop (i + 1))).map (·.url) := by
  rw [qUrls, set_take_drop qs i (name, q) (name, rem) hget, qMemes_append, qMemes_cons]
  dsimp only
  simp [List.map_append]

/-- The Staging Store loses exactly the inspected entries: under the
well-formedness invariant, the rewritten staging file is smaller than
the original by the number of inspected memes. -/
theorem releaseLoop_removes (th : Thresholds) :
    ∀ (fuel : Nat) (qs : List (String × List Meme)) (subInd : Nat) (limit : Int)
      (scraped : Staging) (archive : Archive), StagingInv scraped qs →
      (releaseLoop th fuel qs subInd limit scraped archive).scraped.length
        + (releaseLoop th fuel qs subInd limit scraped archive).inspected.length
        = scraped.length := by
  intro fuel
  induction fuel with
  | zero => intro qs subInd limit scraped archive _; simp [releaseLoop]
  | succ fuel ih =>
    intro qs subInd limit scraped archive hinv
    by_cases hl : limit ≤ 0
    · simp [releaseLoop, hl]
    · simp only [releaseLoop]
      rw [if_neg hl]
      cases hfn : findNext qs subInd qs.length with
      | none => simp
      | some i =>
        dsimp only
        cases hget : qs.get? i with
        | none => simp
        | some nq =>
          obtain ⟨name, q⟩ := nq
          dsimp only
          set t := subThreshold th (pyLower name) with ht
          set rem := (popUntilEligible t q).1 with hrem
          set ins := (popUntilEligible t q).2.1 with hins
          obtain ⟨hknd, hqnd, hqsub⟩ := hinv
          have hq : ins ++ rem = q := pue_decomp t q
          have hurls : qUrls qs = (qMemes (qs.take i)).map (·.url)
              ++ (ins.map (·.url) ++ rem.map (·.url))
              ++ (qMemes (qs.drop (i + 1))).map (·.url) := by
            rw [qUrls_decomp qs i name q hget, ← hq, List.map_append]
          have hurls' : qUrls (qs.set i (name, rem))
              = (qMemes (qs.take i)).map (·.url) ++ rem.map (·.url)
              ++ (qMemes (qs.drop (i + 1))).map (·.url) :=
            qUrls_set_decomp qs i name q rem hget
          have hqnd2 : ((qMemes (qs.take i)).map (·.url)
              ++ (ins.map (·.url) ++ rem.map (·.url))
              ++ (qMemes (qs.drop (i + 1))).map (·.url)).Nodup := by
            rw [← hurls]; exact hqnd
          have hinsnd : (ins.map (·.url)).Nodup :=
            hqnd2.sublist (middle_sublist _ _ _ _)
          have hinsmem : ∀ m ∈ ins, m.url ∈ stKeys scraped := by
            intro m hm
            apply hqsub
            rw [hurls]
            simp only [List.mem_append]
            exact Or.inl (Or.inr (Or.inl (List.mem_map_of_mem (·.url) hm)))
          have hdel := delUrls_spec ins scraped hknd hinsnd hinsmem
          have hinv' : StagingInv (delUrls scraped ins) (qs.set i (name, rem)) := by
            refine ⟨hdel.2.1, ?_, ?_⟩
            · rw [hurls']
              exact hqnd2.sublist (drop_middle_sublist _ _ _ _)
            · intro u hu
              rw [hurls'] at hu
              refine (hdel.2.2 u).mpr ⟨?_, ?_⟩
              · apply hqsub
                rw [hurls]
                exact (drop_middle_sublist _ _ _ _).subset hu
              · exact not_mem_middle_of_nodup _ _ _ _ hqnd2 u hu
          cases hr : (popUntilEligible t q).2.2 with
          | some m =>
            have := ih (qs.set i (name, rem)) (i + 1) (limit - 1)
              (delUrls scraped ins) (set_posted_to_slack archive m.id true) hinv'
            simp only [List.length_append]
            omega
          | none =>
            have := ih (qs.set i (name, rem)) (i + 1) limit
              (delUrls scraped ins) archive hinv'
            simp only [List.length_append]
            omega

/-! ### Grouping the sorted staging store by sub -/

theorem keysInOrderAux_mem : ∀ (l seen : List String) (a : String),
    a ∈ keysInOrderAux l seen ↔ a ∈ l ∧ a ∉ seen
  | [], seen, a => by simp [keysInOrderAux]
  | s :: rest, seen, a => by
    by_cases h : s ∈ seen
    · rw [keysInOrderAux, if_pos h, keysInOrderAux_mem rest seen a]
      constructor
      · rintro ⟨h1, h2⟩
        exact ⟨List.mem_cons_of_mem _ h1, h2⟩
      · rintro ⟨h1, h2⟩
        rcases List.mem_cons.mp h1 with h3 | h3
        · subst h3
          exact absurd h h2
        · exact ⟨h3, h2⟩
    · rw [keysInOrderAux, if_neg h, List.mem_cons, keysInOrderAux_mem rest (s :: seen) a]
      constructor
      · rintro (h1 | ⟨h1, h2⟩)
        · subst h1
          exact ⟨List.mem_cons_self _ _, h⟩
        · refine ⟨List.mem_cons_of_mem _ h1, fun hs => h2 (List.mem_cons_of_mem _ hs)⟩
      · rintro ⟨h1, h2⟩
        by_cases ha : a = s
        · exact Or.inl ha
        · refine Or.inr ⟨?_, ?_⟩
          · rcases List.mem_cons.mp h1 with h3 | h3
            · exact absurd h3 ha
            · exact h3
          · rw [List.mem_cons]
            push_neg
            exact ⟨ha, h2⟩

theorem keysInOrderAux_nodup : ∀ (l seen : List String), (keysInOrderAux l seen).Nodup
  | [], _ => List.nodup_nil
  | s :: rest, seen => by
    by_cases h : s ∈ seen
    · rw [keysInOrderAux, if_pos h]
      exact keysInOrderAux_nodup rest seen
    · rw [keysInOrderAux, if_neg h, List.nodup_cons]
      refine ⟨?_, keysInOrderAux_nodup rest (s :: seen)⟩
      rw [keysInOrderAux_mem]
      rintro ⟨_, h2⟩
      exact h2 (List.mem_cons_self _ _)

theorem keysInOrder_mem (l : List String) (a : String) : a ∈ keysInOrder l ↔ a ∈ l := by
  rw [keysInOrder, keysInOrderAux_mem]
  simp

theorem keysInOrder_nodup (l : List String) : (keysInOrder l).Nodup :=
  keysInOrderAux_nodup l []

theorem flatten_filters_perm : ∀ (ks : List String) (l : List Meme),
    ks.Nodup → (∀ m ∈ l, m.sub ∈ ks) →
    List.Perm ((ks.map (fun s => l.filter (fun m => m.sub == s))).flatten) l
  | [], l => by
    intro _ hcov
    cases l with
    | nil => simp
    | cons m rest => exact absurd (hcov m (List.mem_cons_self _ _)) (by simp)
  | k :: ks, l => by
    intro hnd hcov
    have hknotin : k ∉ ks := (List.nodup_cons.mp hnd).1
    have hnd' := (List.nodup_cons.mp hnd).2
    rw [List.map_cons, List.flatten_cons]
    have hfilters : ks.map (fun s => l.filter (fun m => m.sub == s))
        = ks.map (fun s => (l.filter (fun m => !(m.sub == k))).filter
            (fun m => m.sub == s)) := by
      apply List.map_congr_left
      intro s hs
      have hsk : s ≠ k := fun he => hknotin (he ▸ hs)
      rw [List.filter_filter]
      apply List.filter_congr
      intro m _
      by_cases hm : m.sub = s
      · simp [hm, hsk]
      · simp [hm]
    rw [hfilters]
    have hcov' : ∀ m ∈ l.filter (fun m => !(m.sub == k)), m.sub ∈ ks := by
      intro m hm
      rw [List.mem_filter] at hm
      rcases List.mem_cons.mp (hcov m hm.1) with h1 | h1
      · exfalso
        have := hm.2
        simp [h1] at this
      · exact h1
    have ihp := flatten_filters_perm ks (l.filter (fun m => !(m.sub == k))) hnd' hcov'
    have h1 := ihp.append_left (l.filter (fun m => m.sub == k))
    have h2 := List.filter_append_perm (fun m => m.sub == k) l
    exact h1.trans h2

theorem qMemes_buildQueues_perm (l : List Meme) :
    List.Perm (qMemes (buildQueues l)) l := by
  rw [qMemes, buildQueues, List.map_map]
  exact flatten_filters_perm (keysInOrder (l.map (·.sub))) l (keysInOrder_nodup _)
    (fun m hm => (keysInOrder_mem _ _).mpr (List.mem_map_of_mem _ hm))

theorem eligCountQ_buildQueues (th : Thresholds) (l : List Meme) :
    eligCountQ th (buildQueues l) = l.countP (eligible th) := by
  rw [eligCountQ, buildQueues, List.map_map]
  have hmap : (keysInOrder (l.map (·.sub))).map
        ((qElig th) ∘ fun s => (s, l.filter (fun m => m.sub == s)))
      = (keysInOrder (l.map (·.sub))).map
        (fun s => (l.filter (fun m => m.sub == s)).countP (eligible th)) := by
    apply List.map_congr_left
    intro s _
    show qElig th (s, l.filter (fun m => m.sub == s)) = _
    rw [qElig]
    apply List.countP_congr
    intro m hm
    rw [List.mem_filter] at hm
    have hms : m.sub = s := by simpa using hm.2
    simp [eligible, hms]
  rw [hmap]
  have hflat := List.countP_flatten (eligible th)
    ((keysInOrder (l.map (·.sub))).map (fun s => l.filter (fun m => m.sub == s)))
  rw [List.map_map] at hflat
  simp only [Function.comp_def] at hflat
  rw [← hflat]
  exact (flatten_filters_perm (keysInOrder (l.map (·.sub))) l (keysInOrder_nodup _)
    (fun m hm => (keysInOrder_mem _ _).mpr (List.mem_map_of_mem _ hm))).countP_eq _

theorem staging_inv_start (scraped : Staging)
    (hkeys : (stKeys scraped).Nodup)
    (hurl : ∀ p ∈ scraped, p.1 = p.2.url) :
    StagingInv scraped
      (buildQueues ((List.insertionSort byCreated scraped).map (·.2))) := by
  have hq := qMemes_buildQueues_perm ((List.insertionSort byCreated scraped).map (·.2))
  have hsp : List.Perm ((List.insertionSort byCreated scraped).map (·.2))
      (scraped.map (·.2)) := (List.perm_insertionSort byCreated scraped).map (·.2)
  have hqs := hq.trans hsp
  have hkeyurl : scraped.map (fun p => p.2.url) = stKeys scraped := by
    rw [stKeys]
    apply List.map_congr_left
    intro p hp
    exact (hurl p hp).symm
  have hup : List.Perm
      (qUrls (buildQueues ((List.insertionSort byCreated scraped).map (·.2))))
      (stKeys scraped) := by
    rw [qUrls, ← hkeyurl]
    have hmapped := hqs.map (·.url)
    rw [List.map_map] at hmapped
    exact hmapped
  exact ⟨hkeys, hup.nodup_iff.mpr hkeys, fun u hu => hup.mem_iff.mp hu⟩

/-! ### C3 — release-cycle budget and removal accounting -/

/-- C3: for a release cycle with budget `B > 0` over a well-formed
Staging Store (distinct keys, each key the record's URL) holding `P`
memes whose high-water mark strictly exceeds their source's threshold:
exactly `min(B, P)` meme messages are enqueued; the store loses exactly
the inspected entries, and at least `min(B, P)` of them; and a publish
marking is issued for precisely the enqueued memes, in order. -/
theorem release_cycle_spec (archive : Archive) (scraped : Staging) (th : Thresholds)
    (B : Int) (hB : 0 < B)
    (hkeys : (stKeys scraped).Nodup)
    (hurl : ∀ p ∈ scraped, p.1 = p.2.url) :
    (add_new_memes_to_queue archive scraped th (some B)).1.msgs.length
      = min B.toNat ((scraped.map (·.2)).countP (eligible th)) ∧
    (add_new_memes_to_queue archive scraped th (some B)).1.scraped.length
      + (add_new_memes_to_queue archive scraped th (some B)).1.inspected.length
      = scraped.length ∧
    min B.toNat ((scraped.map (·.2)).countP (eligible th))
      ≤ (add_new_memes_to_queue archive scraped th (some B)).1.inspected.length ∧
    (add_new_memes_to_queue archive scraped th (some B)).1.pubIds
      = (add_new_memes_to_queue archive scraped th (some B)).1.msgs.map (·.id) := by
  have hbud : resolveBudget scraped th (some B) = B := by
    simp only [resolveBudget]
    rw [if_neg (by omega)]
  have hout : (add_new_memes_to_queue archive scraped th (some B)).1
      = releaseLoop th
          (totalQ (buildQueues ((List.insertionSort byCreated scraped).map (·.2))) + 1)
          (buildQueues ((List.insertionSort byCreated scraped).map (·.2)))
          0 B scraped archive := by
    simp only [add_new_memes_to_queue]
    rw [hbud]
  set qs := buildQueues ((List.insertionSort byCreated scraped).map (·.2)) with hqs
  have hE : eligCountQ th qs = (scraped.map (·.2)).countP (eligible th) := by
    rw [hqs, eligCountQ_buildQueues]
    exact ((List.perm_insertionSort byCreated scraped).map (·.2)).countP_eq _
  have hinv := staging_inv_start scraped hkeys hurl
  have hcount := releaseLoop_msgs_count th (totalQ qs + 1) qs 0 B scraped archive
    (Nat.lt_succ_self _)
  have hrem := releaseLoop_removes th (totalQ qs + 1) qs 0 B scraped archive hinv
  have hle := releaseLoop_msgs_le_inspected th (totalQ qs + 1) qs 0 B scraped archive
  have hpub := releaseLoop_pubIds th (totalQ qs + 1) qs 0 B scraped archive
  rw [hout]
  refine ⟨by rw [hcount, hE], hrem, ?_, hpub⟩
  rw [← hE, ← hcount]
  exact hle

/-- Witness for `release_cycle_spec`: a single eligible staged meme and
budget 2 yield one enqueued message. -/
theorem release_cycle_spec_witness :
    (add_new_memes_to_queue [] [("u", mkMeme "i" "s" "u" 9 9 false 0 false)]
        [("global", 5)] (some 2)).1.msgs.length
      = min (2 : Int).toNat (([("u", mkMeme "i" "s" "u" 9 9 false 0 false)].map
        (·.2)).countP (eligible [("global", 5)])) := by
  exact (release_cycle_spec [] [("u", mkMeme "i" "s" "u" 9 9 false 0 false)]
    [("global", 5)] 2 (by decide) (by decide) (by decide)).1

/-! ### C8 — default budget resolution -/

theorem sumValues_bump : ∀ (c : Counters) (k : String),
    sumValues (bump c k) = sumValues c + 1
  | [], _ => rfl
  | (k', v) :: rest, k => by
    show sumValues (if k' == k then (k', v + 1) :: rest else (k', v) :: bump rest k)
      = sumValues ((k', v) :: rest) + 1
    by_cases h : (k' == k) = true
    · rw [if_pos h]
      simp [sumValues]
      omega
    · rw [if_neg h]
      have hrec := sumValues_bump rest k
      simp [sumValues] at hrec ⊢
      omega

theorem countStep_postable_sum (th : Thresholds) :
    ∀ (staging : Staging) (tc pc : Counters),
      sumValues (staging.foldl (countStep th) (tc, pc)).2
        = sumValues pc + staging.countP (fun p => postablePred th p.2)
  | [], _, _ => by simp
  | p :: rest, tc, pc => by
    rw [List.foldl_cons, List.countP_cons]
    by_cases ha : p.2.over_18
    · have hstep : countStep th (tc, pc) p = (tc, pc) := by
        simp [countStep, ha]
      have hpred : postablePred th p.2 = false := by
        simp [postablePred, ha]
      rw [hstep, countStep_postable_sum th rest tc pc, hpred]
      simp
    · by_cases hge : p.2.highest_ups ≥ subThreshold th (pyLower p.2.sub)
      · have hstep : countStep th (tc, pc) p
            = (bump tc (pyLower p.2.sub), bump pc (pyLower p.2.sub)) := by
          simp [countStep, ha, hge]
        have hpred : postablePred th p.2 = true := by
          simp [postablePred, ha, hge]
        rw [hstep, countStep_postable_sum th rest _ _, sumValues_bump, hpred]
        simp
        omega
      · have hstep : countStep th (tc, pc) p = (bump tc (pyLower p.2.sub), pc) := by
          simp [countStep, ha, hge]
        have hpred : postablePred th p.2 = false := by
          simp [postablePred, ha, hge]
        rw [hstep, countStep_postable_sum th rest _ _, hpred]
        simp

/-- C8: with no limit passed, the release engine's budget is
`max(10, floor(0.2 × currentPostableCount))`, where the postable count
is the number of staged non-adult memes whose high-water mark meets
(non-strictly) the applicable per-source-or-global threshold.  The
float multiplication `0.2 × s` is modelled exactly as `s / 5`. -/
theorem default_budget_formula (archive : Archive) (scraped : Staging) (th : Thresholds) :
    (add_new_memes_to_queue archive scraped th none).2
      = max 10 (Int.ofNat (scraped.countP (fun p => postablePred th p.2) / 5)) := by
  show resolveBudget scraped th none = _
  have hsum : sumValues (count_memes scraped th).2
      = scraped.countP (fun p => postablePred th p.2) := by
    have h0 := countStep_postable_sum th scraped [] []
    simpa [count_memes, sumValues] using h0
  simp only [resolveBudget]
  rw [hsum]

/-! ### C9 — adult records, the Staging Store and release output -/

/-- C9 (counterexample): an identifier archived as non-adult is fetched
again flagged adult; the re-stage path of `scrape` (lines 122-125)
consults the ARCHIVED adult flag, so the freshly fetched adult record IS
written into the Staging Store, and a release cycle (which applies no
adult check) enqueues it. -/
theorem adult_record_staged_counterexample :
    (processPost ⟨[mkMeme "x" "s" "u" 5 5 false 0 false], []⟩
      (mkMeme "x" "s" "u" 50 50 true 0 false)).staging.map (fun p => p.2.over_18)
      = [true] ∧
    (add_new_memes_to_queue
      (processPost ⟨[mkMeme "x" "s" "u" 5 5 false 0 false], []⟩
        (mkMeme "x" "s" "u" 50 50 true 0 false)).archive
      (processPost ⟨[mkMeme "x" "s" "u" 5 5 false 0 false], []⟩
        (mkMeme "x" "s" "u" 50 50 true 0 false)).staging
      [("global", 1)] (some 1)).1.msgs.map (·.over_18) = [true] := by
  decide

/-- C9 (amended): a fetched adult record is never staged through the
new-record insert path; on the re-stage path the decision consults the
archived record's adult flag, so staging is refused whenever the
archived record is adult (but a fetched adult record whose archived
copy is non-adult IS re-staged — the counterexample); and a release
cycle enqueues only staged memes, so its output contains no adult
record whenever the Staging Store contains none. -/
theorem adult_staging_policy :
    (∀ (db : DB) (post : Meme), get_meme_data db.archive post.id = none →
      post.over_18 = true → (processPost db post).staging = db.staging) ∧
    (∀ (db : DB) (post prev : Meme), get_meme_data db.archive post.id = some prev →
      prev.over_18 = true → (processPost db post).staging = db.staging) ∧
    (∀ (archive : Archive) (scraped : Staging) (th : Thresholds) (lim : Option Int)
      (m : Meme), (∀ p ∈ scraped, p.2.over_18 = false) →
      m ∈ (add_new_memes_to_queue archive scraped th lim).1.msgs →
      m.over_18 = false) := by
  refine ⟨?_, ?_, ?_⟩
  · intro db post h1 h2
    simp [processPost, h1, h2]
  · intro db post prev h1 h2
    have hkeep : (mergeUpdate prev post).over_18 = true := h2
    simp [processPost, h1, hkeep]
  · intro archive scraped th lim m hall hm
    have hm2 : m ∈ (releaseLoop th
        (totalQ (buildQueues ((List.insertionSort byCreated scraped).map (·.2))) + 1)
        (buildQueues ((List.insertionSort byCreated scraped).map (·.2))) 0
        (resolveBudget scraped th lim) scraped archive).msgs := hm
    have hq := releaseLoop_msgs_subset th _ _ _ _ _ _ m hm2
    have hperm := qMemes_buildQueues_perm ((List.insertionSort byCreated scraped).map (·.2))
    have hm3 : m ∈ scraped.map (·.2) :=
      (((List.perm_insertionSort byCreated scraped).map (·.2)).mem_iff).mp
        (hperm.mem_iff.mp hq)
    obtain ⟨p, hp, hpe⟩ := List.mem_map.mp hm3
    rw [← hpe]
    exact hall p hp

/-- Witness for `adult_staging_policy`: an adult record new to the
archive is not staged; a record whose archived copy is adult is not
re-staged. -/
theorem adult_staging_policy_witness :
    (processPost ⟨[], []⟩ (mkMeme "x" "s" "u" 5 5 true 0 false)).staging = [] ∧
    (processPost ⟨[mkMeme "x" "s" "u" 1 1 true 0 false], []⟩
      (mkMeme "x" "s" "u" 5 5 false 0 false)).staging = [] := by
  constructor
  · exact adult_staging_policy.1 ⟨[], []⟩ (mkMeme "x" "s" "u" 5 5 true 0 false)
      (by decide) (by decide)
  · exact adult_staging_policy.2.1 ⟨[mkMeme "x" "s" "u" 1 1 true 0 false], []⟩
      (mkMeme "x" "s" "u" 5 5 false 0 false) (mkMeme "x" "s" "u" 1 1 true 0 false)
      (by decide) (by decide)

/-! ### C10 — the boundary between counting (>=) and releasing (>) -/

/-- C10: a staged non-adult meme whose high-water mark exactly equals
its applicable threshold is counted as postable by `count_memes` (the
comparison is non-strict), while a release cycle that inspects it
removes it from the Staging Store without enqueuing a message and
without issuing a publish marking (the comparison is strict). -/
theorem threshold_boundary_behaviour (archive : Archive) (th : Thresholds)
    (m : Meme) (B : Int)
    (had : m.over_18 = false)
    (heq : m.highest_ups = subThreshold th (pyLower m.sub))
    (hB : 0 < B) :
    sumValues (count_memes [(m.url, m)] th).2 = 1 ∧
    (add_new_memes_to_queue archive [(m.url, m)] th (some B)).1.msgs = [] ∧
    (add_new_memes_to_queue archive [(m.url, m)] th (some B)).1.pubIds = [] ∧
    (add_new_memes_to_queue archive [(m.url, m)] th (some B)).1.scraped = [] := by
  have hge : m.highest_ups ≥ subThreshold th (pyLower m.sub) := heq.ge
  have hth : ¬ (m.highest_ups > subThreshold th (pyLower m.sub)) := by
    rw [heq]
    exact lt_irrefl _
  have hBn : ¬ (B ≤ 0) := by omega
  have hcnt : sumValues (count_memes [(m.url, m)] th).2 = 1 := by
    simp [count_memes, countStep, had, hge, bump, sumValues]
  have hbud : resolveBudget [(m.url, m)] th (some B) = B := by
    simp only [resolveBudget]
    rw [if_neg (by omega)]
  have hqs : buildQueues [m] = [(m.sub, [m])] := by
    simp [buildQueues, keysInOrder, keysInOrderAux, List.filter]
  have hpue : popUntilEligible (subThreshold th (pyLower m.sub)) [m] = ([], [m], none) := by
    simp [popUntilEligible, hth]
  have hloop2 : releaseLoop th 1 [(m.sub, [])] 1 B [] archive
      = ⟨[], archive, [], [], []⟩ := by
    simp [releaseLoop, findNext, hBn]
  have hloop : releaseLoop th (1 + 1) [(m.sub, [m])] 0 B [(m.url, m)] archive
      = ⟨[], archive, [], [], [m]⟩ := by
    rw [show (1 + 1 : Nat) = Nat.succ 1 from rfl, releaseLoop, if_neg hBn]
    have hfind : findNext [(m.sub, [m])] 0 ([(m.sub, [m])].length) = some 0 := by
      simp [findNext]
    rw [hfind]
    dsimp only
    rw [show ([(m.sub, [m])].get? 0) = some (m.sub, [m]) from rfl]
    dsimp only
    rw [hpue]
    dsimp only
    have hdel : delUrls [(m.url, m)] [m] = [] := by
      simp [delUrls, dictDel]
    rw [hdel]
    rw [show ([(m.sub, [m])].set 0 (m.sub, ([] : List Meme))) = [(m.sub, [])] from rfl]
    rw [hloop2]
    rfl
  have hout : (add_new_memes_to_queue archive [(m.url, m)] th (some B)).1
      = releaseLoop th (totalQ (buildQueues [m]) + 1) (buildQueues [m]) 0 B
          [(m.url, m)] archive := by
    simp only [add_new_memes_to_queue]
    rw [hbud]
    rfl
  rw [hout, hqs]
  rw [show totalQ [(m.sub, [m])] = 1 from rfl]
  rw [hloop]
  exact ⟨hcnt, rfl, rfl, rfl⟩

/-- Witness for `threshold_boundary_behaviour`: global threshold 7, a
meme with high-water mark exactly 7 is postable for the counter yet
rejected (and destaged) by the release cycle. -/
theorem threshold_boundary_behaviour_witness :
    sumValues (count_memes [("u", mkMeme "i" "s" "u" 7 7 false 0 false)]
      [("global", 7)]).2 = 1 ∧
    (add_new_memes_to_queue [] [("u", mkMeme "i" "s" "u" 7 7 false 0 false)]
      [("global", 7)] (some 3)).1.msgs = [] ∧
    (add_new_memes_to_queue [] [("u", mkMeme "i" "s" "u" 7 7 false 0 false)]
      [("global", 7)] (some 3)).1.pubIds = [] ∧
    (add_new_memes_to_queue [] [("u", mkMeme "i" "s" "u" 7 7 false 0 false)]
      [("global", 7)] (some 3)).1.scraped = [] := by
  exact threshold_boundary_behaviour [] [("global", 7)]
    (mkMeme "i" "s" "u" 7 7 false 0 false) 3 (by decide) (by decide) (by decide)

end AutoMemer
